import Mathlib

/-!
Verification of the epoch-pipelined simulation driver of arbor
(src/arbor/simulation.cpp), shallowly embedded in Lean.

Times are modelled as integers: the driver only compares times, takes
minima and adds the epoch interval, so the ordering-related properties
proved here are insensitive to the choice of ordered time domain.

Code that lives outside src/ (the spike_event ordering, the epoch record,
the tree merge of sorted spans, and the collaborator interfaces) is
modelled from the spec; every such definition carries a doc comment
saying so.
-/

namespace ArborSim

/-- Post-synaptic spike event: target local cell, weight, delivery time
(arb::spike_event, used through pse_vector in simulation.cpp). -/
structure pse where
  target : Nat
  weight : Int
  time : Int
deriving DecidableEq

/-- Spike record: source cell and time. -/
structure spike where
  source : Nat
  time : Int
deriving DecidableEq

/-- Modelled from the spec: the ordering key of a post-synaptic event is
its time, with ties broken by target then weight (the spike_event header
with this lexicographic comparison is not under src/). This is the
operator< used by std::merge and util::sort in simulation.cpp. -/
def pseLt (a b : pse) : Bool :=
  if a.time < b.time then true
  else if b.time < a.time then false
  else if a.target < b.target then true
  else if b.target < a.target then false
  else decide (a.weight < b.weight)

/-- Time-sortedness (non-decreasing delivery times) of an event sequence. -/
def TimeSorted (l : List pse) : Prop :=
  l.Pairwise (fun a b => a.time ≤ b.time)

instance (l : List pse) : Decidable (TimeSorted l) := by
  unfold TimeSorted; infer_instance

/-- Fuel-indexed two-way merge preferring the left list on equal times.
With adequate fuel this is the k-way tree merge step; the fuel makes the
definition structurally recursive so that it evaluates in the kernel. -/
def mergeTimeAux : Nat → List pse → List pse → List pse
  | 0, xs, ys => xs ++ ys
  | _ + 1, [], ys => ys
  | _ + 1, x :: xs, [] => x :: xs
  | n + 1, x :: xs, y :: ys =>
    if x.time ≤ y.time then x :: mergeTimeAux n xs (y :: ys)
    else y :: mergeTimeAux n (x :: xs) ys

/-- Two-way merge of time-sorted event lists, stable and left-biased on
equal times. -/
def mergeByTime (xs ys : List pse) : List pse :=
  mergeTimeAux (xs.length + ys.length) xs ys

/-- Modelled from the spec: tree_merge_events (merge_events.hpp, not under
src/) performs a k-way merge of the sorted spans into the output, where
equal-time events preserve the span order (earlier spans first). A
left-biased fold of two-way merges realizes exactly that tie-break. -/
def tree_merge_events (spans : List (List pse)) : List pse :=
  spans.foldl mergeByTime []

/-- Fuel-indexed two-way merge in the manner of std::merge: an element of
the second list is taken only when it is strictly smaller (by the full
event ordering) than the head of the first list, so equivalent elements
of the first range come first. -/
def stdMergeAux : Nat → List pse → List pse → List pse
  | 0, xs, ys => xs ++ ys
  | _ + 1, [], ys => ys
  | _ + 1, x :: xs, [] => x :: xs
  | n + 1, x :: xs, y :: ys =>
    if pseLt y x then y :: stdMergeAux n (x :: xs) ys
    else x :: stdMergeAux n xs (y :: ys)

/-- std::merge(first, second) on event vectors, as called at the end of
merge_cell_events (simulation.cpp line 85) with pending as the first
range and the old events as the second. -/
def stdMerge (xs ys : List pse) : List pse :=
  stdMergeAux (xs.length + ys.length) xs ys

/-- split_sorted_range(seq, v, event_time_less()) from simulation.cpp:
on a time-sorted sequence, lower_bound splits it into the events with
time < v and the rest. -/
def split_sorted_range (evs : List pse) (t : Int) : List pse × List pse :=
  (evs.takeWhile (fun e => e.time < t), evs.dropWhile (fun e => e.time < t))

/-- merge_cell_events from simulation.cpp lines 39-87. The out
parameter out0 holds the previous contents of new_events; the body
clears it first (new_events.clear(), line 48) and never reads it. A
generator is embedded as the function giving its events for a window,
as produced by g.events(t_from, t_to). -/
def merge_cell_events (t_from t_to : Int) (old_events pending : List pse)
    (generators : List (Int → Int → List pse)) (out0 : List pse) : List pse :=
  let new_events : List pse := []   -- new_events.clear()
  let old1 := (split_sorted_range old_events t_from).2
  if generators.isEmpty then
    -- merge (remaining) old and pending events
    new_events ++ stdMerge pending old1
  else
    let old_split := split_sorted_range old1 t_to
    let pending_split := split_sorted_range pending t_to
    let spanbuf := [old_split.1, pending_split.1] ++
      ((generators.map (fun g => g t_from t_to)).filter (fun l => !l.isEmpty))
    let merged := new_events ++ tree_merge_events spanbuf
    merged ++ stdMerge pending_split.2 old_split.2

/-- Insertion of an event into a list sorted by the full event ordering. -/
def insertPse (e : pse) : List pse → List pse
  | [] => [e]
  | x :: xs => if pseLt e x then e :: x :: xs else x :: insertPse e xs

/-- util::sort on a pending buffer: sorts by the full event ordering.
Since that ordering is total and antisymmetric up to equality of events,
the sorted arrangement is unique, so this insertion sort computes the
same list as std::sort. -/
def sortPse (l : List pse) : List pse :=
  l.foldr insertPse []

/-! Elementary facts about the event ordering. -/

theorem pseLt_true_time_le {a b : pse} (h : pseLt a b = true) : a.time ≤ b.time := by
  unfold pseLt at h
  split at h
  · omega
  · split at h
    · exact absurd h (by simp)
    · omega

theorem pseLt_false_time_le {a b : pse} (h : pseLt a b = false) : b.time ≤ a.time := by
  unfold pseLt at h
  split at h
  · exact absurd h (by simp)
  · omega

/-! Membership, sortedness and equal-time stability of the two-way merges. -/

theorem mem_mergeTimeAux (n : Nat) (xs ys : List pse) (a : pse) :
    a ∈ mergeTimeAux n xs ys ↔ a ∈ xs ∨ a ∈ ys := by
  induction n generalizing xs ys with
  | zero => simp [mergeTimeAux]
  | succ n ih =>
    match xs, ys with
    | [], ys => simp [mergeTimeAux]
    | x :: xs, [] => simp [mergeTimeAux]
    | x :: xs, y :: ys =>
      simp only [mergeTimeAux]
      split
      · simp only [List.mem_cons, ih]
        tauto
      · simp only [List.mem_cons, ih]
        tauto

theorem timeSorted_mergeTimeAux (n : Nat) (xs ys : List pse)
    (h : xs.length + ys.length ≤ n)
    (hx : TimeSorted xs) (hy : TimeSorted ys) :
    TimeSorted (mergeTimeAux n xs ys) := by
  induction n generalizing xs ys with
  | zero =>
    rcases xs with _ | ⟨x, xs⟩
    · rcases ys with _ | ⟨y, ys⟩
      · simp [mergeTimeAux, TimeSorted]
      · simp at h
    · simp at h
  | succ n ih =>
    match xs, ys with
    | [], ys => simpa [mergeTimeAux] using hy
    | x :: xs, [] => simpa [mergeTimeAux] using hx
    | x :: xs, y :: ys =>
      rw [TimeSorted, List.pairwise_cons] at hx hy
      simp only [mergeTimeAux]
      split
      · rename_i hxy
        rw [TimeSorted, List.pairwise_cons]
        refine ⟨fun z hz => ?_, ih xs (y :: ys) (by simp at h ⊢; omega) hx.2
          (by rw [TimeSorted, List.pairwise_cons]; exact hy)⟩
        rcases (mem_mergeTimeAux n xs (y :: ys) z).mp hz with hz | hz
        · exact hx.1 z hz
        · rcases List.mem_cons.mp hz with rfl | hz
          · exact hxy
          · exact le_trans hxy (hy.1 z hz)
      · rename_i hxy
        push_neg at hxy
        rw [TimeSorted, List.pairwise_cons]
        refine ⟨fun z hz => ?_, ih (x :: xs) ys (by simp at h ⊢; omega)
          (by rw [TimeSorted, List.pairwise_cons]; exact hx) hy.2⟩
        rcases (mem_mergeTimeAux n (x :: xs) ys z).mp hz with hz | hz
        · rcases List.mem_cons.mp hz with rfl | hz
          · omega
          · exact le_trans (le_of_lt hxy) (hx.1 z hz)
        · exact hy.1 z hz

theorem filter_mergeTimeAux (t : Int) (n : Nat) (xs ys : List pse)
    (h : xs.length + ys.length ≤ n)
    (hx : TimeSorted xs) (hy : TimeSorted ys) :
    (mergeTimeAux n xs ys).filter (fun e => decide (e.time = t))
      = xs.filter (fun e => decide (e.time = t))
        ++ ys.filter (fun e => decide (e.time = t)) := by
  induction n generalizing xs ys with
  | zero =>
    rcases xs with _ | ⟨x, xs⟩
    · rcases ys with _ | ⟨y, ys⟩
      · simp [mergeTimeAux]
      · simp at h
    · simp at h
  | succ n ih =>
    match xs, ys with
    | [], ys => simp [mergeTimeAux]
    | x :: xs, [] => simp [mergeTimeAux]
    | x :: xs, y :: ys =>
      rw [TimeSorted, List.pairwise_cons] at hx hy
      simp only [mergeTimeAux]
      split
      · rename_i hxy
        rw [List.filter_cons, List.filter_cons,
          ih xs (y :: ys) (by simp at h ⊢; omega) hx.2
            (by rw [TimeSorted, List.pairwise_cons]; exact hy)]
        split <;> simp
      · rename_i hxy
        push_neg at hxy
        rw [List.filter_cons,
          ih (x :: xs) ys (by simp at h ⊢; omega)
            (by rw [TimeSorted, List.pairwise_cons]; exact hx) hy.2]
        by_cases hyt : y.time = t
        · have hnil : (x :: xs).filter (fun e => decide (e.time = t)) = [] := by
            rw [List.filter_eq_nil_iff]
            intro z hz
            rcases List.mem_cons.mp hz with rfl | hz
            · simp; omega
            · have := hx.1 z hz
              simp; omega
          simp [hnil, hyt, List.filter_cons]
        · have : (decide (y.time = t)) = false := by simp [hyt]
          simp [List.filter_cons, this]

theorem mem_stdMergeAux (n : Nat) (xs ys : List pse) (a : pse) :
    a ∈ stdMergeAux n xs ys ↔ a ∈ xs ∨ a ∈ ys := by
  induction n generalizing xs ys with
  | zero => simp [stdMergeAux]
  | succ n ih =>
    match xs, ys with
    | [], ys => simp [stdMergeAux]
    | x :: xs, [] => simp [stdMergeAux]
    | x :: xs, y :: ys =>
      simp only [stdMergeAux]
      split
      · simp only [List.mem_cons, ih]
        tauto
      · simp only [List.mem_cons, ih]
        tauto

theorem timeSorted_stdMergeAux (n : Nat) (xs ys : List pse)
    (h : xs.length + ys.length ≤ n)
    (hx : TimeSorted xs) (hy : TimeSorted ys) :
    TimeSorted (stdMergeAux n xs ys) := by
  induction n generalizing xs ys with
  | zero =>
    rcases xs with _ | ⟨x, xs⟩
    · rcases ys with _ | ⟨y, ys⟩
      · simp [stdMergeAux, TimeSorted]
      · simp at h
    · simp at h
  | succ n ih =>
    match xs, ys with
    | [], ys => simpa [stdMergeAux] using hy
    | x :: xs, [] => simpa [stdMergeAux] using hx
    | x :: xs, y :: ys =>
      rw [TimeSorted, List.pairwise_cons] at hx hy
      simp only [stdMergeAux]
      split
      · rename_i hlt
        have hyx : y.time ≤ x.time := pseLt_true_time_le hlt
        rw [TimeSorted, List.pairwise_cons]
        refine ⟨fun z hz => ?_, ih (x :: xs) ys (by simp at h ⊢; omega)
          (by rw [TimeSorted, List.pairwise_cons]; exact hx) hy.2⟩
        rcases (mem_stdMergeAux n (x :: xs) ys z).mp hz with hz | hz
        · rcases List.mem_cons.mp hz with rfl | hz
          · exact hyx
          · exact le_trans hyx (hx.1 z hz)
        · exact hy.1 z hz
      · rename_i hlt
        have hxy : x.time ≤ y.time :=
          pseLt_false_time_le (by simpa using hlt)
        rw [TimeSorted, List.pairwise_cons]
        refine ⟨fun z hz => ?_, ih xs (y :: ys) (by simp at h ⊢; omega) hx.2
          (by rw [TimeSorted, List.pairwise_cons]; exact hy)⟩
        rcases (mem_stdMergeAux n xs (y :: ys) z).mp hz with hz | hz
        · exact hx.1 z hz
        · rcases List.mem_cons.mp hz with rfl | hz
          · exact hxy
          · exact le_trans hxy (hy.1 z hz)

theorem mem_mergeByTime (xs ys : List pse) (a : pse) :
    a ∈ mergeByTime xs ys ↔ a ∈ xs ∨ a ∈ ys :=
  mem_mergeTimeAux _ xs ys a

theorem timeSorted_mergeByTime {xs ys : List pse}
    (hx : TimeSorted xs) (hy : TimeSorted ys) :
    TimeSorted (mergeByTime xs ys) :=
  timeSorted_mergeTimeAux _ xs ys le_rfl hx hy

theorem filter_mergeByTime (t : Int) {xs ys : List pse}
    (hx : TimeSorted xs) (hy : TimeSorted ys) :
    (mergeByTime xs ys).filter (fun e => decide (e.time = t))
      = xs.filter (fun e => decide (e.time = t))
        ++ ys.filter (fun e => decide (e.time = t)) :=
  filter_mergeTimeAux t _ xs ys le_rfl hx hy

theorem mem_stdMerge (xs ys : List pse) (a : pse) :
    a ∈ stdMerge xs ys ↔ a ∈ xs ∨ a ∈ ys :=
  mem_stdMergeAux _ xs ys a

theorem timeSorted_stdMerge {xs ys : List pse}
    (hx : TimeSorted xs) (hy : TimeSorted ys) :
    TimeSorted (stdMerge xs ys) :=
  timeSorted_stdMergeAux _ xs ys le_rfl hx hy

/-! Facts about the k-way tree merge, obtained by folding the two-way
merge over the spans. -/

theorem mem_foldl_mergeByTime (spans : List (List pse)) (acc : List pse) (a : pse) :
    a ∈ spans.foldl mergeByTime acc ↔ a ∈ acc ∨ ∃ s ∈ spans, a ∈ s := by
  induction spans generalizing acc with
  | nil => simp
  | cons s spans ih =>
    simp only [List.foldl_cons, ih, mem_mergeByTime, List.mem_cons]
    constructor
    · rintro (⟨h | h⟩ | ⟨u, hu, ha⟩)
      · exact Or.inl h
      · exact Or.inr ⟨s, Or.inl rfl, h⟩
      · exact Or.inr ⟨u, Or.inr hu, ha⟩
    · rintro (h | ⟨u, (rfl | hu), ha⟩)
      · exact Or.inl (Or.inl h)
      · exact Or.inl (Or.inr ha)
      · exact Or.inr ⟨u, hu, ha⟩

theorem timeSorted_foldl_mergeByTime {spans : List (List pse)} {acc : List pse}
    (hacc : TimeSorted acc) (hs : ∀ s ∈ spans, TimeSorted s) :
    TimeSorted (spans.foldl mergeByTime acc) := by
  induction spans generalizing acc with
  | nil => simpa using hacc
  | cons s spans ih =>
    simp only [List.foldl_cons]
    exact ih (timeSorted_mergeByTime hacc (hs s (by simp)))
      (fun u hu => hs u (List.mem_cons_of_mem _ hu))

theorem filter_foldl_mergeByTime (t : Int) {spans : List (List pse)} {acc : List pse}
    (hacc : TimeSorted acc) (hs : ∀ s ∈ spans, TimeSorted s) :
    (spans.foldl mergeByTime acc).filter (fun e => decide (e.time = t))
      = acc.filter (fun e => decide (e.time = t))
        ++ (spans.map (fun s => s.filter (fun e => decide (e.time = t)))).flatten := by
  induction spans generalizing acc with
  | nil => simp
  | cons s spans ih =>
    simp only [List.foldl_cons, List.map_cons, List.flatten_cons]
    rw [ih (timeSorted_mergeByTime hacc (hs s (by simp)))
        (fun u hu => hs u (List.mem_cons_of_mem _ hu)),
      filter_mergeByTime t hacc (hs s (by simp)), List.append_assoc]

theorem mem_tree_merge_events (spans : List (List pse)) (a : pse) :
    a ∈ tree_merge_events spans ↔ ∃ s ∈ spans, a ∈ s := by
  unfold tree_merge_events
  rw [mem_foldl_mergeByTime]
  simp

theorem timeSorted_tree_merge_events {spans : List (List pse)}
    (hs : ∀ s ∈ spans, TimeSorted s) :
    TimeSorted (tree_merge_events spans) :=
  timeSorted_foldl_mergeByTime (by simp [TimeSorted]) hs

theorem filter_tree_merge_events (t : Int) {spans : List (List pse)}
    (hs : ∀ s ∈ spans, TimeSorted s) :
    (tree_merge_events spans).filter (fun e => decide (e.time = t))
      = (spans.map (fun s => s.filter (fun e => decide (e.time = t)))).flatten := by
  unfold tree_merge_events
  rw [filter_foldl_mergeByTime t (by simp [TimeSorted]) hs]
  simp

/-! Facts about splitting a time-sorted sequence at a bound. -/

theorem timeSorted_takeWhile {l : List pse} (h : TimeSorted l) (t : Int) :
    TimeSorted (l.takeWhile (fun e => e.time < t)) :=
  List.Pairwise.sublist (List.takeWhile_sublist _) h

theorem timeSorted_dropWhile {l : List pse} (h : TimeSorted l) (t : Int) :
    TimeSorted (l.dropWhile (fun e => e.time < t)) :=
  List.Pairwise.sublist (List.dropWhile_sublist _) h

theorem mem_takeWhile_time_lt {l : List pse} {t : Int} {e : pse}
    (h : e ∈ l.takeWhile (fun x => decide (x.time < t))) : e.time < t := by
  have := List.mem_takeWhile_imp h
  simpa using this

/-- On a time-sorted list, every event surviving the drop of the
time < t initial segment has time at least t. -/
theorem mem_dropWhile_time_ge {l : List pse} (hl : TimeSorted l) {t : Int} {e : pse}
    (h : e ∈ l.dropWhile (fun x => decide (x.time < t))) : t ≤ e.time := by
  induction l with
  | nil => simp [List.dropWhile] at h
  | cons x xs ih =>
    rw [TimeSorted, List.pairwise_cons] at hl
    rw [List.dropWhile_cons] at h
    split at h
    · exact ih hl.2 h
    · rename_i hx
      simp only [decide_eq_true_eq] at hx
      rcases List.mem_cons.mp h with rfl | h
      · omega
      · exact le_trans (by omega) (hl.1 e h)

theorem mem_dropWhile_of_not_lt {l : List pse} {t : Int} {e : pse}
    (hmem : e ∈ l) (hge : t ≤ e.time) :
    e ∈ l.dropWhile (fun x => decide (x.time < t)) := by
  rcases List.mem_append.mp
      ((List.takeWhile_append_dropWhile (fun x : pse => decide (x.time < t)) l) ▸ hmem)
    with h | h
  · have := mem_takeWhile_time_lt h
    omega
  · exact h

theorem filter_takeWhile_of_lt {l : List pse} (hl : TimeSorted l) {t tto : Int}
    (ht : t < tto) :
    (l.takeWhile (fun e => decide (e.time < tto))).filter (fun e => decide (e.time = t))
      = l.filter (fun e => decide (e.time = t)) := by
  conv_rhs =>
    rw [← List.takeWhile_append_dropWhile (fun e => decide (e.time < tto)) l]
  rw [List.filter_append]
  have hnil : (l.dropWhile (fun e => decide (e.time < tto))).filter
      (fun e => decide (e.time = t)) = [] := by
    rw [List.filter_eq_nil_iff]
    intro z hz
    have := mem_dropWhile_time_ge hl hz
    simp
    omega
  rw [hnil, List.append_nil]

theorem filter_dropWhile_of_ge {l : List pse} {t tfrom : Int}
    (ht : tfrom ≤ t) :
    (l.dropWhile (fun e => decide (e.time < tfrom))).filter (fun e => decide (e.time = t))
      = l.filter (fun e => decide (e.time = t)) := by
  conv_rhs =>
    rw [← List.takeWhile_append_dropWhile (fun e => decide (e.time < tfrom)) l]
  rw [List.filter_append]
  have hnil : (l.takeWhile (fun e => decide (e.time < tfrom))).filter
      (fun e => decide (e.time = t)) = [] := by
    rw [List.filter_eq_nil_iff]
    intro z hz
    have := mem_takeWhile_time_lt hz
    simp
    omega
  rw [hnil, List.nil_append]

/-! The insertion sort used for pending buffers yields time-sorted output. -/

theorem mem_insertPse (e a : pse) (l : List pse) :
    a ∈ insertPse e l ↔ a = e ∨ a ∈ l := by
  induction l with
  | nil => simp [insertPse]
  | cons x xs ih =>
    simp only [insertPse]
    split
    · simp [List.mem_cons]
    · simp only [List.mem_cons, ih]
      tauto

theorem timeSorted_insertPse {e : pse} {l : List pse} (hl : TimeSorted l) :
    TimeSorted (insertPse e l) := by
  induction l with
  | nil => simp [insertPse, TimeSorted]
  | cons x xs ih =>
    rw [TimeSorted, List.pairwise_cons] at hl
    simp only [insertPse]
    split
    · rename_i hlt
      have hex : e.time ≤ x.time := pseLt_true_time_le hlt
      rw [TimeSorted, List.pairwise_cons]
      refine ⟨fun z hz => ?_, List.pairwise_cons.mpr hl⟩
      rcases List.mem_cons.mp hz with rfl | hz
      · exact hex
      · exact le_trans hex (hl.1 z hz)
    · rename_i hlt
      have hxe : x.time ≤ e.time :=
        pseLt_false_time_le (by simpa using hlt)
      rw [TimeSorted, List.pairwise_cons]
      refine ⟨fun z hz => ?_, ih hl.2⟩
      rcases (mem_insertPse e z xs).mp hz with rfl | hz
      · exact hxe
      · exact hl.1 z hz

theorem timeSorted_sortPse (l : List pse) : TimeSorted (sortPse l) := by
  induction l with
  | nil => simp [sortPse, TimeSorted]
  | cons x xs ih =>
    simpa [sortPse] using timeSorted_insertPse (e := x) ih

/-! Guarantees of merge_cell_events. -/

/-- Unfolded shape of merge_cell_events. -/
theorem merge_cell_events_eq (t_from t_to : Int) (old_events pending : List pse)
    (generators : List (Int → Int → List pse)) (out0 : List pse) :
    merge_cell_events t_from t_to old_events pending generators out0
      = if generators.isEmpty then
          stdMerge pending (old_events.dropWhile (fun e => decide (e.time < t_from)))
        else
          tree_merge_events
            ([(old_events.dropWhile (fun e => decide (e.time < t_from))).takeWhile
                (fun e => decide (e.time < t_to)),
              pending.takeWhile (fun e => decide (e.time < t_to))] ++
              ((generators.map (fun g => g t_from t_to)).filter (fun l => !l.isEmpty)))
          ++ stdMerge (pending.dropWhile (fun e => decide (e.time < t_to)))
              ((old_events.dropWhile (fun e => decide (e.time < t_from))).dropWhile
                (fun e => decide (e.time < t_to))) := by
  unfold merge_cell_events split_sorted_range
  split <;> simp

/-- Sortedness of the generator spans used in a merge call. -/
def GenSpansSorted (t_from t_to : Int) (generators : List (Int → Int → List pse)) : Prop :=
  ∀ g ∈ generators, TimeSorted (g t_from t_to)

/-- Generator spans stay inside the requested window, as the generator
contract promises (events(t_from, t_to) yields events in that interval). -/
def GenSpansInWindow (t_from t_to : Int) (generators : List (Int → Int → List pse)) : Prop :=
  ∀ g ∈ generators, ∀ e ∈ g t_from t_to, t_from ≤ e.time ∧ e.time < t_to

theorem timeSorted_merge_cell_events {t_from t_to : Int}
    {old_events pending : List pse} {generators : List (Int → Int → List pse)}
    (hold : TimeSorted old_events) (hpend : TimeSorted pending)
    (hgs : GenSpansSorted t_from t_to generators)
    (hgw : GenSpansInWindow t_from t_to generators) (out0 : List pse) :
    TimeSorted (merge_cell_events t_from t_to old_events pending generators out0) := by
  rw [merge_cell_events_eq]
  have hold1 : TimeSorted (old_events.dropWhile (fun e => decide (e.time < t_from))) :=
    timeSorted_dropWhile hold t_from
  split
  · exact timeSorted_stdMerge hpend hold1
  · have hspans : ∀ s ∈ [(old_events.dropWhile (fun e => decide (e.time < t_from))).takeWhile
        (fun e => decide (e.time < t_to)),
        pending.takeWhile (fun e => decide (e.time < t_to))] ++
        ((generators.map (fun g => g t_from t_to)).filter (fun l => !l.isEmpty)),
        TimeSorted s := by
      intro s hs
      rcases List.mem_append.mp hs with hs | hs
      · rcases List.mem_cons.mp hs with rfl | hs
        · exact timeSorted_takeWhile hold1 t_to
        · rcases List.mem_cons.mp hs with rfl | hs
          · exact timeSorted_takeWhile hpend t_to
          · simp at hs
      · rcases List.mem_filter.mp hs with ⟨hs, -⟩
        rcases List.mem_map.mp hs with ⟨g, hg, rfl⟩
        exact hgs g hg
    rw [TimeSorted, List.pairwise_append]
    refine ⟨timeSorted_tree_merge_events hspans,
      timeSorted_stdMerge (timeSorted_dropWhile hpend t_to)
        (timeSorted_dropWhile hold1 t_to), fun a ha b hb => ?_⟩
    have hlt : a.time < t_to := by
      rcases (mem_tree_merge_events _ a).mp ha with ⟨s, hs, has⟩
      rcases List.mem_append.mp hs with hs | hs
      · rcases List.mem_cons.mp hs with rfl | hs
        · exact mem_takeWhile_time_lt has
        · rcases List.mem_cons.mp hs with rfl | hs
          · exact mem_takeWhile_time_lt has
          · simp at hs
      · rcases List.mem_filter.mp hs with ⟨hs, -⟩
        rcases List.mem_map.mp hs with ⟨g, hg, rfl⟩
        exact (hgw g hg a has).2
    have hge : t_to ≤ b.time := by
      rcases (mem_stdMerge _ _ b).mp hb with hbm | hbm
      · exact mem_dropWhile_time_ge hpend hbm
      · exact mem_dropWhile_time_ge hold1 hbm
    omega

theorem merge_cell_events_time_ge {t_from t_to : Int}
    {old_events pending : List pse} {generators : List (Int → Int → List pse)}
    (hold : TimeSorted old_events)
    (hpf : ∀ e ∈ pending, t_from ≤ e.time)
    (hgw : GenSpansInWindow t_from t_to generators) (out0 : List pse) :
    ∀ e ∈ merge_cell_events t_from t_to old_events pending generators out0,
      t_from ≤ e.time := by
  rw [merge_cell_events_eq]
  intro e he
  split at he
  · rcases (mem_stdMerge _ _ e).mp he with he | he
    · exact hpf e he
    · exact mem_dropWhile_time_ge hold he
  · rcases List.mem_append.mp he with he | he
    · rcases (mem_tree_merge_events _ e).mp he with ⟨s, hs, hes⟩
      rcases List.mem_append.mp hs with hs | hs
      · rcases List.mem_cons.mp hs with rfl | hs
        · exact mem_dropWhile_time_ge hold ((List.takeWhile_sublist _).subset hes)
        · rcases List.mem_cons.mp hs with rfl | hs
          · exact hpf e ((List.takeWhile_sublist _).subset hes)
          · simp at hs
      · rcases List.mem_filter.mp hs with ⟨hs, -⟩
        rcases List.mem_map.mp hs with ⟨g, hg, rfl⟩
        exact (hgw g hg e hes).1
    · rcases (mem_stdMerge _ _ e).mp he with he | he
      · exact hpf e ((List.dropWhile_sublist _).subset he)
      · exact mem_dropWhile_time_ge hold
          ((List.dropWhile_sublist _).subset he)

theorem merge_cell_events_keeps_future {t_from t_to : Int}
    {old_events pending : List pse} {generators : List (Int → Int → List pse)}
    (hft : t_from ≤ t_to) (out0 : List pse) :
    ∀ e, (e ∈ old_events ∨ e ∈ pending) → t_to ≤ e.time →
      e ∈ merge_cell_events t_from t_to old_events pending generators out0 := by
  rw [merge_cell_events_eq]
  intro e he het
  have hold1 : e ∈ old_events →
      e ∈ old_events.dropWhile (fun x => decide (x.time < t_from)) :=
    fun h => mem_dropWhile_of_not_lt h (by omega)
  split
  · rcases he with he | he
    · exact (mem_stdMerge _ _ e).mpr (Or.inr (hold1 he))
    · exact (mem_stdMerge _ _ e).mpr (Or.inl he)
  · refine List.mem_append.mpr (Or.inr ?_)
    rcases he with he | he
    · exact (mem_stdMerge _ _ e).mpr
        (Or.inr (mem_dropWhile_of_not_lt (hold1 he) het))
    · exact (mem_stdMerge _ _ e).mpr
        (Or.inl (mem_dropWhile_of_not_lt he het))

/-- Removing the empty spans does not change the concatenation of the
per-span filters. -/
theorem flatten_filter_nonempty (p : pse → Bool) (L : List (List pse)) :
    ((L.filter (fun l => !l.isEmpty)).map (fun s => s.filter p)).flatten
      = (L.map (fun s => s.filter p)).flatten := by
  induction L with
  | nil => simp
  | cons s L ih =>
    rcases s with _ | ⟨x, xs⟩
    · simpa using ih
    · simpa using ih

/-- Equal-time stability of the tree-merged window: for a time t inside
[t_from, t_to), the events of the output with time t are exactly the old
events with time t, then the pending events with time t, then the
events of generator i with time t in ascending i. -/
theorem filter_merge_cell_events_window {t_from t_to : Int}
    {old_events pending : List pse} {generators : List (Int → Int → List pse)}
    (hold : TimeSorted old_events) (hpend : TimeSorted pending)
    (hgs : GenSpansSorted t_from t_to generators)
    (hne : generators.isEmpty = false) (out0 : List pse) :
    ∀ t, t_from ≤ t → t < t_to →
      (merge_cell_events t_from t_to old_events pending generators out0).filter
          (fun e => decide (e.time = t))
        = old_events.filter (fun e => decide (e.time = t))
          ++ pending.filter (fun e => decide (e.time = t))
          ++ (generators.map
              (fun g => (g t_from t_to).filter (fun e => decide (e.time = t)))).flatten := by
  intro t htf htt
  rw [merge_cell_events_eq, if_neg (by simp [hne])]
  have hold1 : TimeSorted (old_events.dropWhile (fun e => decide (e.time < t_from))) :=
    timeSorted_dropWhile hold t_from
  have hspans : ∀ s ∈ [(old_events.dropWhile (fun e => decide (e.time < t_from))).takeWhile
      (fun e => decide (e.time < t_to)),
      pending.takeWhile (fun e => decide (e.time < t_to))] ++
      ((generators.map (fun g => g t_from t_to)).filter (fun l => !l.isEmpty)),
      TimeSorted s := by
    intro s hs
    rcases List.mem_append.mp hs with hs | hs
    · rcases List.mem_cons.mp hs with rfl | hs
      · exact timeSorted_takeWhile hold1 t_to
      · rcases List.mem_cons.mp hs with rfl | hs
        · exact timeSorted_takeWhile hpend t_to
        · simp at hs
    · rcases List.mem_filter.mp hs with ⟨hs, -⟩
      rcases List.mem_map.mp hs with ⟨g, hg, rfl⟩
      exact hgs g hg
  rw [List.filter_append]
  have htail : (stdMerge (pending.dropWhile (fun e => decide (e.time < t_to)))
      ((old_events.dropWhile (fun e => decide (e.time < t_from))).dropWhile
        (fun e => decide (e.time < t_to)))).filter (fun e => decide (e.time = t)) = [] := by
    rw [List.filter_eq_nil_iff]
    intro z hz
    have : t_to ≤ z.time := by
      rcases (mem_stdMerge _ _ z).mp hz with hz | hz
      · exact mem_dropWhile_time_ge hpend hz
      · exact mem_dropWhile_time_ge hold1 hz
    simp
    omega
  rw [htail, List.append_nil, filter_tree_merge_events t hspans]
  simp only [List.map_append, List.map_cons, List.map_nil, List.flatten_append,
    List.flatten_cons, List.flatten_nil, List.append_nil]
  rw [filter_takeWhile_of_lt hold1 htt, filter_dropWhile_of_ge htf,
    filter_takeWhile_of_lt hpend htt,
    flatten_filter_nonempty (fun e => decide (e.time = t)), List.map_map]
  simp only [List.append_assoc]
  rfl

/-- Claim C2 (amended): with time-sorted old and pending events, pending
events no older than t_from, and generator spans sorted and inside the
window, the output of merge_cell_events is time-sorted, every output
event has time at least t_from, and every input event with time at least
t_to is present in the output. -/
theorem merge_cell_events_guarantees (t_from t_to : Int)
    (old_events pending : List pse) (generators : List (Int → Int → List pse))
    (out0 : List pse)
    (hold : TimeSorted old_events) (hpend : TimeSorted pending)
    (hft : t_from ≤ t_to)
    (hpf : ∀ e ∈ pending, t_from ≤ e.time)
    (hgs : GenSpansSorted t_from t_to generators)
    (hgw : GenSpansInWindow t_from t_to generators) :
    TimeSorted (merge_cell_events t_from t_to old_events pending generators out0)
      ∧ (∀ e ∈ merge_cell_events t_from t_to old_events pending generators out0,
          t_from ≤ e.time)
      ∧ (∀ e, (e ∈ old_events ∨ e ∈ pending) → t_to ≤ e.time →
          e ∈ merge_cell_events t_from t_to old_events pending generators out0) :=
  ⟨timeSorted_merge_cell_events hold hpend hgs hgw out0,
   merge_cell_events_time_ge hold hpf hgw out0,
   merge_cell_events_keeps_future hft out0⟩

/-- Witness generator: a single event at the window start. -/
def genWitness : Int → Int → List pse :=
  fun a _ => [⟨2, 0, a⟩]

/-- Witness for merge_cell_events_guarantees at a concrete call. -/
theorem merge_cell_events_guarantees_witness :
    TimeSorted (merge_cell_events 0 2 [⟨0, 0, 1⟩] [⟨1, 0, 3⟩] [genWitness] [])
      ∧ (∀ e ∈ merge_cell_events 0 2 [⟨0, 0, 1⟩] [⟨1, 0, 3⟩] [genWitness] [],
          (0 : Int) ≤ e.time)
      ∧ (∀ e, (e ∈ [(⟨0, 0, 1⟩ : pse)] ∨ e ∈ [(⟨1, 0, 3⟩ : pse)]) → (2 : Int) ≤ e.time →
          e ∈ merge_cell_events 0 2 [⟨0, 0, 1⟩] [⟨1, 0, 3⟩] [genWitness] []) :=
  merge_cell_events_guarantees 0 2 [⟨0, 0, 1⟩] [⟨1, 0, 3⟩] [genWitness] []
    (by decide) (by decide) (by decide) (by decide)
    (by intro g hg; rcases List.mem_singleton.mp hg with rfl; decide)
    (by intro g hg; rcases List.mem_singleton.mp hg with rfl; decide)

/-- Counterexample to claim C2 as stated: a sorted pending buffer whose
event lies before t_from ends up in the output with time < t_from, so
without the extra premise on pending the guarantee "every event has time
at least t_from" fails. -/
theorem merge_cell_events_past_event_cex :
    TimeSorted [(⟨0, 0, 0⟩ : pse)]
      ∧ merge_cell_events 1 2 [] [⟨0, 0, 0⟩] [] [] = [⟨0, 0, 0⟩]
      ∧ ¬((1 : Int) ≤ (⟨0, 0, 0⟩ : pse).time) := by
  refine ⟨by decide, rfl, by decide⟩

/-- Claim C3 (amended): when generators are present, equal-time events
whose time lies in the tree-merged window [t_from, t_to) appear in the
output in source order, old before pending before generator i in
ascending i. Events with time at least t_to go through the final
std::merge(pending, old) instead and need not respect that order. -/
theorem merge_cell_events_window_tie_break (t_from t_to : Int)
    (old_events pending : List pse) (generators : List (Int → Int → List pse))
    (out0 : List pse)
    (hold : TimeSorted old_events) (hpend : TimeSorted pending)
    (hgs : GenSpansSorted t_from t_to generators)
    (hne : generators.isEmpty = false) :
    ∀ t, t_from ≤ t → t < t_to →
      (merge_cell_events t_from t_to old_events pending generators out0).filter
          (fun e => decide (e.time = t))
        = old_events.filter (fun e => decide (e.time = t))
          ++ pending.filter (fun e => decide (e.time = t))
          ++ (generators.map
              (fun g => (g t_from t_to).filter (fun e => decide (e.time = t)))).flatten :=
  filter_merge_cell_events_window hold hpend hgs hne out0

/-- Witness generator emitting one event at time 2. -/
def genWitness2 : Int → Int → List pse :=
  fun _ _ => [⟨3, 0, 2⟩]

/-- Witness for merge_cell_events_window_tie_break: at equal time 2 the
old event comes out first, then the pending event, then the generator
event. -/
theorem merge_cell_events_window_tie_break_witness :
    (merge_cell_events 0 5 [⟨1, 0, 2⟩] [⟨2, 0, 2⟩] [genWitness2] []).filter
        (fun e => decide (e.time = 2))
      = [⟨1, 0, 2⟩, ⟨2, 0, 2⟩, ⟨3, 0, 2⟩] :=
  (merge_cell_events_window_tie_break 0 5 [⟨1, 0, 2⟩] [⟨2, 0, 2⟩] [genWitness2] []
      (by decide) (by decide)
      (by intro g hg; rcases List.mem_singleton.mp hg with rfl; decide)
      (by decide) 2 (by decide) (by decide)).trans (by decide)

/-- Trivial generator with no events, used to reach the generator branch. -/
def genNone : Int → Int → List pse :=
  fun _ _ => []

/-- Counterexample to claim C3 as stated: two equal-time events, one old
and one pending, come out of merge_cell_events with the pending event
first, both when no generator exists (the whole call is the final
std::merge) and when a generator is present but the events lie at or
beyond t_to (the tail merge). The event ⟨3,0,1⟩ is the pending one. -/
theorem merge_cell_events_tie_break_cex :
    TimeSorted [(⟨5, 0, 1⟩ : pse)] ∧ TimeSorted [(⟨3, 0, 1⟩ : pse)]
      ∧ (⟨5, 0, 1⟩ : pse).time = (⟨3, 0, 1⟩ : pse).time
      ∧ (⟨5, 0, 1⟩ : pse) ≠ (⟨3, 0, 1⟩ : pse)
      ∧ merge_cell_events 0 10 [⟨5, 0, 1⟩] [⟨3, 0, 1⟩] [] [] = [⟨3, 0, 1⟩, ⟨5, 0, 1⟩]
      ∧ merge_cell_events 0 1 [⟨5, 0, 1⟩] [⟨3, 0, 1⟩] [genNone] []
          = [⟨3, 0, 1⟩, ⟨5, 0, 1⟩] := by
  refine ⟨by decide, by decide, by decide, by decide, rfl, rfl⟩

/-- Claim C10: merge_cell_events clears the output vector before
writing, so the result does not depend on the prior contents of out. -/
theorem merge_cell_events_ignores_prior_out (t_from t_to : Int)
    (old_events pending : List pse) (generators : List (Int → Int → List pse))
    (out0 out1 : List pse) :
    merge_cell_events t_from t_to old_events pending generators out0
      = merge_cell_events t_from t_to old_events pending generators out1 := rfl

/-! The simulation state (class simulation_state of simulation.cpp) and
its operations. -/

/-- Modelled from the spec: the epoch record (epoch.hpp is not under
src/). id is a non-negative integer, advance_to(t) sets t0 to t1, t1 to
t and increments id, and reset zeroes all fields. -/
structure epoch where
  id : Nat
  t0 : Int
  t1 : Int
deriving DecidableEq

def epoch.advance_to (e : epoch) (t : Int) : epoch :=
  ⟨e.id + 1, e.t1, t⟩

/-- Modelled from the spec: an epoch is empty iff t0 == t1. The driver
maintains t0 ≤ t1 on every epoch it builds, so the form t1 ≤ t0 used
here is equivalent on those epochs (and keeps the run loop well
founded). -/
def epoch.empty (e : epoch) : Bool :=
  e.t1 ≤ e.t0

/-- Entry of the gid_to_local_ hash table of simulation_state. -/
structure gid_local_info where
  cell_index : Nat
  group_index : Nat
deriving DecidableEq

/-- Exception bad_event_time(time, t1) thrown by inject_events. -/
structure bad_event_time where
  time : Int
  t1 : Int
deriving DecidableEq

/-- Modelled from the spec: the external collaborators of the driver.
Cell groups, event generators and the communicator live outside src/;
their state is abstracted as a number and their behavior as opaque
functions: advance takes the group index, group state, epoch, dt and the
event lanes and yields the new group state and the spikes produced;
comm_exchange takes the communicator state and the local spikes and
yields the new communicator state and the global spikes;
make_event_queues appends translated events to the pending buffers;
gen_events gives a generator state's events for a window; the reset
functions model cell_group::reset, event_generator::reset and
communicator::reset. -/
structure SimModel where
  advance : Nat → Nat → epoch → Int → List (List pse) → Nat × List spike
  comm_exchange : Nat → List spike → Nat × List spike
  make_event_queues : List spike → List (List pse) → List (List pse)
  gen_events : Nat → Int → Int → List pse
  gen_reset : Nat → Nat
  group_reset : Nat → Nat
  comm_reset : Nat → Nat

/-- State of simulation_state (simulation.cpp lines 118-154): the
recorded epoch, the maximum epoch interval, the cell-group states, one
list of generator states per local cell, the gid lookup table, one
pending buffer per local cell, the two event-lane buffers and the two
local spike stores, and the communicator state. The number of local
cells is the length of pending_events (both it and the lane buffers are
sized to num_local_cells at construction). -/
structure sim_state where
  epoch_ : epoch
  t_interval : Int
  cell_groups : List Nat
  event_generators : List (List Nat)
  gid_to_local : Nat → Option gid_local_info
  pending_events : List (List pse)
  event_lanes0 : List (List pse)
  event_lanes1 : List (List pse)
  local_spikes0 : List spike
  local_spikes1 : List spike
  comm : Nat

/-- event_lanes(epoch_id): the lane buffer of the epoch's parity. -/
def sim_state.event_lanes (s : sim_state) (id : Nat) : List (List pse) :=
  if id % 2 = 0 then s.event_lanes0 else s.event_lanes1

def sim_state.set_event_lanes (s : sim_state) (id : Nat)
    (v : List (List pse)) : sim_state :=
  if id % 2 = 0 then { s with event_lanes0 := v } else { s with event_lanes1 := v }

/-- local_spikes(epoch_id): the spike store of the epoch's parity. -/
def sim_state.local_spikes (s : sim_state) (id : Nat) : List spike :=
  if id % 2 = 0 then s.local_spikes0 else s.local_spikes1

def sim_state.set_local_spikes (s : sim_state) (id : Nat)
    (v : List spike) : sim_state :=
  if id % 2 = 0 then { s with local_spikes0 := v } else { s with local_spikes1 := v }

/-- Update task (simulation.cpp lines 345-358): clear the spike store of
the current parity, advance every cell group over the current epoch
reading its queue slice from the current lanes, and collect the spikes
produced. -/
def update (m : SimModel) (dt : Int) (cur : epoch) (s : sim_state) : sim_state :=
  let queues := s.event_lanes cur.id
  let res := (List.range s.cell_groups.length).map
    (fun i => m.advance i (s.cell_groups.getD i 0) cur dt queues)
  ({ s with cell_groups := res.map Prod.fst }).set_local_spikes cur.id
    (res.map Prod.snd).flatten

/-- Exchange task (simulation.cpp lines 360-384): gather the previous
epoch's local spikes, exchange them through the communicator, and append
the resulting events to the per-cell pending buffers. The user spike
callbacks observe no driver state and are dropped. -/
def exchange (m : SimModel) (prv : epoch) (s : sim_state) : sim_state :=
  let all_local := s.local_spikes prv.id
  let gr := m.comm_exchange s.comm all_local
  { s with comm := gr.fst,
           pending_events := m.make_event_queues gr.snd s.pending_events }

/-- The per-cell lanes built by the enqueue task: for every local cell,
sort its pending buffer and merge it with the unconsumed lane of the
previous epoch and the generator events for the next window. -/
def lane_merge (m : SimModel) (nxt : epoch) (s : sim_state) : List (List pse) :=
  (List.range s.pending_events.length).map (fun i =>
    merge_cell_events nxt.t0 nxt.t1 ((s.event_lanes (nxt.id - 1)).getD i [])
      (sortPse (s.pending_events.getD i []))
      ((s.event_generators.getD i []).map (fun st => fun a b => m.gen_events st a b))
      ((s.event_lanes nxt.id).getD i []))

/-- Enqueue task (simulation.cpp lines 386-401): write the merged lanes
into the buffer of the next epoch and clear every pending buffer. -/
def enqueue (m : SimModel) (nxt : epoch) (s : sim_state) : sim_state :=
  ({ s with pending_events := s.pending_events.map (fun _ => []) }).set_event_lanes
    nxt.id (lane_merge m nxt s)

/-- The following epoch, of length at most the interval, capped at
tfinal (the next_epoch lambda of simulation_state::run, lines 339-343). -/
def next_epoch (tfinal : Int) (e : epoch) (interval : Int) : epoch :=
  e.advance_to (min (e.t1 + interval) tfinal)

/-- The pipelined loop of simulation_state::run (lines 421-436),
sequentialized: the parallel pairs of tasks in the source touch disjoint
state (spec section 5), so their effects compose in either order; the
order written in the source is kept. On loop entry prev is the epoch
just updated and next the epoch already enqueued. -/
def run_loop (m : SimModel) (dt tfinal interval : Int)
    (current next : epoch) (s : sim_state) : sim_state × Int :=
  let nxt := next_epoch tfinal next interval
  if nxt.empty then
    let s1 := exchange m current s
    let s2 := update m dt next s1
    let s3 := exchange m next s2
    ({ s3 with epoch_ := next }, next.t1)
  else
    let s1 := exchange m current s
    let s2 := enqueue m nxt s1
    let s3 := update m dt next s2
    run_loop m dt tfinal interval next nxt s3
termination_by (tfinal - next.t1).toNat
decreasing_by
  rename_i hne
  unfold_let nxt at hne
  simp only [epoch.empty, next_epoch, epoch.advance_to, min_def,
    decide_eq_true_eq] at hne ⊢
  split at hne <;> omega

/-- simulation_state::run (simulation.cpp lines 294-442). Returns the
new state and the returned time. -/
def sim_run (m : SimModel) (s : sim_state) (tfinal dt : Int) : sim_state × Int :=
  if tfinal ≤ s.epoch_.t1 then (s, s.epoch_.t1)
  else
    let interval := s.t_interval
    let current := next_epoch tfinal s.epoch_ interval
    let next := next_epoch tfinal current interval
    if next.empty then
      let s1 := enqueue m current s
      let s2 := update m dt current s1
      let s3 := exchange m current s2
      ({ s3 with epoch_ := current }, current.t1)
    else
      let s1 := enqueue m current s
      let s2 := enqueue m next s1
      let s3 := update m dt current s2
      run_loop m dt tfinal interval current next s3

/-- simulation::run (simulation.cpp lines 516-521): reject a
non-positive dt with a domain error, otherwise forward. -/
def simulation_run (m : SimModel) (s : sim_state) (tfinal dt : Int) :
    Except String (sim_state × Int) :=
  if dt ≤ 0 then Except.error "Finite time-step must be supplied."
  else Except.ok (sim_run m s tfinal dt)

/-- simulation_state::reset (simulation.cpp lines 261-292): zero the
epoch clock, reset every cell group, clear every lane of both lane
buffers, reset every event generator, clear every pending buffer, reset
the communicator, and clear both spike stores. -/
def sim_reset (m : SimModel) (s : sim_state) : sim_state :=
  { epoch_ := ⟨0, 0, 0⟩,
    t_interval := s.t_interval,
    cell_groups := s.cell_groups.map m.group_reset,
    event_generators := s.event_generators.map (List.map m.gen_reset),
    gid_to_local := s.gid_to_local,
    pending_events := s.pending_events.map (fun _ => []),
    event_lanes0 := s.event_lanes0.map (fun _ => []),
    event_lanes1 := s.event_lanes1.map (fun _ => []),
    local_spikes0 := [],
    local_spikes1 := [],
    comm := m.comm_reset s.comm }

/-! simulation_state::inject_events (simulation.cpp lines 486-500). -/

/-- pending_events_[i].push_back(e). -/
def push_at (pend : List (List pse)) (i : Nat) (e : pse) : List (List pse) :=
  pend.set i (pend.getD i [] ++ [e])

/-- Deliver one event: append it to the pending buffer of the target
cell when the gid is local, drop it otherwise (lines 494-497). -/
def push_one (g2l : Nat → Option gid_local_info) (gid : Nat) (e : pse)
    (pend : List (List pse)) : List (List pse) :=
  match g2l gid with
  | some li => push_at pend li.cell_index e
  | none => pend

/-- Inner loop of inject_events over one map entry: check the event time
against the recorded epoch end before anything else, throwing
bad_event_time (carrying the buffers as mutated so far, since the C++
throw leaves the partial appends in place), then deliver. -/
def inject_cell (t1 : Int) (g2l : Nat → Option gid_local_info) (gid : Nat) :
    List pse → List (List pse) →
      Except (bad_event_time × List (List pse)) (List (List pse))
  | [], pend => Except.ok pend
  | e :: rest, pend =>
    if e.time < t1 then Except.error (⟨e.time, t1⟩, pend)
    else inject_cell t1 g2l gid rest (push_one g2l gid e pend)

/-- Outer loop of inject_events over the gid → event-list map. -/
def inject_loop (t1 : Int) (g2l : Nat → Option gid_local_info) :
    List (Nat × List pse) → List (List pse) →
      Except (bad_event_time × List (List pse)) (List (List pse))
  | [], pend => Except.ok pend
  | (gid, evs) :: rest, pend =>
    match inject_cell t1 g2l gid evs pend with
    | Except.ok pend1 => inject_loop t1 g2l rest pend1
    | Except.error r => Except.error r

/-- Result of inject_events: either the updated state, or the thrown
bad_event_time together with the state as left behind by the throw. -/
inductive inject_result where
  | ok (s : sim_state)
  | err (e : bad_event_time) (s : sim_state)

/-- simulation_state::inject_events on the simulation state. -/
def sim_inject (s : sim_state) (events : List (Nat × List pse)) : inject_result :=
  match inject_loop s.epoch_.t1 s.gid_to_local events s.pending_events with
  | Except.ok p => inject_result.ok { s with pending_events := p }
  | Except.error r => inject_result.err r.1 { s with pending_events := r.2 }

/-- The events of an injection call flattened in iteration order. -/
def flat_events (events : List (Nat × List pse)) : List (Nat × pse) :=
  (events.map (fun p => p.2.map (fun e => (p.1, e)))).flatten

/-- inject_events on the flattened event sequence. -/
def inject_flat (t1 : Int) (g2l : Nat → Option gid_local_info) :
    List (Nat × pse) → List (List pse) →
      Except (bad_event_time × List (List pse)) (List (List pse))
  | [], pend => Except.ok pend
  | (gid, e) :: rest, pend =>
    if e.time < t1 then Except.error (⟨e.time, t1⟩, pend)
    else inject_flat t1 g2l rest (push_one g2l gid e pend)

/-- Delivery of a sequence of time-valid events. -/
def apply_good (g2l : Nat → Option gid_local_info) (l : List (Nat × pse))
    (pend : List (List pse)) : List (List pse) :=
  l.foldl (fun p q => push_one g2l q.1 q.2 p) pend

/-! The nested injection loops process exactly the flattened event
sequence. -/

theorem inject_flat_append (t1 : Int) (g2l : Nat → Option gid_local_info)
    (l1 l2 : List (Nat × pse)) (pend : List (List pse)) :
    inject_flat t1 g2l (l1 ++ l2) pend
      = match inject_flat t1 g2l l1 pend with
        | Except.ok p => inject_flat t1 g2l l2 p
        | Except.error r => Except.error r := by
  induction l1 generalizing pend with
  | nil => simp [inject_flat]
  | cons q l1 ih =>
    rcases q with ⟨gid, e⟩
    simp only [List.cons_append, inject_flat]
    split
    · rfl
    · exact ih _

theorem inject_cell_eq_flat (t1 : Int) (g2l : Nat → Option gid_local_info)
    (gid : Nat) (evs : List pse) (pend : List (List pse)) :
    inject_cell t1 g2l gid evs pend
      = inject_flat t1 g2l (evs.map (fun e => (gid, e))) pend := by
  induction evs generalizing pend with
  | nil => simp [inject_cell, inject_flat]
  | cons e evs ih =>
    simp only [inject_cell, List.map_cons, inject_flat]
    split
    · rfl
    · exact ih _

theorem inject_loop_eq_flat (t1 : Int) (g2l : Nat → Option gid_local_info)
    (events : List (Nat × List pse)) (pend : List (List pse)) :
    inject_loop t1 g2l events pend = inject_flat t1 g2l (flat_events events) pend := by
  induction events generalizing pend with
  | nil => simp [inject_loop, flat_events, inject_flat]
  | cons p events ih =>
    rcases p with ⟨gid, evs⟩
    simp only [inject_loop, flat_events, List.map_cons, List.flatten_cons]
    rw [inject_flat_append, ← inject_cell_eq_flat]
    split
    · exact ih _
    · rfl

theorem inject_flat_all_good (t1 : Int) (g2l : Nat → Option gid_local_info)
    (l : List (Nat × pse)) (pend : List (List pse))
    (h : ∀ q ∈ l, ¬(q.2.time < t1)) :
    inject_flat t1 g2l l pend = Except.ok (apply_good g2l l pend) := by
  induction l generalizing pend with
  | nil => simp [inject_flat, apply_good]
  | cons q l ih =>
    rcases q with ⟨gid, e⟩
    simp only [inject_flat, apply_good, List.foldl_cons]
    rw [if_neg (h (gid, e) (by simp))]
    exact ih _ (fun q hq => h q (List.mem_cons_of_mem _ hq))

theorem inject_flat_first_bad (t1 : Int) (g2l : Nat → Option gid_local_info)
    (pre : List (Nat × pse)) (gid : Nat) (bad : pse) (post : List (Nat × pse))
    (pend : List (List pse))
    (hpre : ∀ q ∈ pre, ¬(q.2.time < t1)) (hbad : bad.time < t1) :
    inject_flat t1 g2l (pre ++ (gid, bad) :: post) pend
      = Except.error (⟨bad.time, t1⟩, apply_good g2l pre pend) := by
  induction pre generalizing pend with
  | nil => simp [inject_flat, apply_good, if_pos hbad]
  | cons q pre ih =>
    rcases q with ⟨g, e⟩
    simp only [List.cons_append, inject_flat, apply_good, List.foldl_cons]
    rw [if_neg (hpre (g, e) (by simp))]
    exact ih _ (fun q hq => hpre q (List.mem_cons_of_mem _ hq))

theorem apply_good_foreign (g2l : Nat → Option gid_local_info)
    (l : List (Nat × pse)) (pend : List (List pse))
    (h : ∀ q ∈ l, g2l q.1 = none) :
    apply_good g2l l pend = pend := by
  induction l generalizing pend with
  | nil => rfl
  | cons q l ih =>
    simp only [apply_good, List.foldl_cons] at *
    rw [show push_one g2l q.1 q.2 pend = pend by
      unfold push_one; rw [h q (by simp)]]
    exact ih _ (fun q hq => h q (List.mem_cons_of_mem _ hq))

/-- Claim C1 (amended): an injection call whose flattened event sequence
contains a first event older than the recorded epoch end throws
bad_event_time for that event; the pending buffers then hold exactly the
earlier, time-valid events of the same call already delivered to their
local cells (so they are unchanged only when no local event precedes the
offending one). -/
theorem inject_events_first_offending (s : sim_state)
    (events : List (Nat × List pse)) (pre : List (Nat × pse)) (gid : Nat)
    (bad : pse) (post : List (Nat × pse))
    (hflat : flat_events events = pre ++ (gid, bad) :: post)
    (hpre : ∀ q ∈ pre, ¬(q.2.time < s.epoch_.t1))
    (hbad : bad.time < s.epoch_.t1) :
    sim_inject s events
      = inject_result.err ⟨bad.time, s.epoch_.t1⟩
          { s with pending_events := apply_good s.gid_to_local pre s.pending_events } := by
  unfold sim_inject
  rw [inject_loop_eq_flat, hflat,
    inject_flat_first_bad s.epoch_.t1 s.gid_to_local pre gid bad post
      s.pending_events hpre hbad]

/-- Common concrete gid table: gid 0 is the only local cell. -/
def g2l0 : Nat → Option gid_local_info :=
  fun g => if g = 0 then some ⟨0, 0⟩ else none

/-- Common concrete state: epoch [0,1) recorded, one local cell with an
empty pending buffer. -/
def st0 : sim_state :=
  { epoch_ := ⟨1, 0, 1⟩,
    t_interval := 1,
    cell_groups := [0],
    event_generators := [[]],
    gid_to_local := g2l0,
    pending_events := [[]],
    event_lanes0 := [[]],
    event_lanes1 := [[]],
    local_spikes0 := [],
    local_spikes1 := [],
    comm := 0 }

/-- Witness for inject_events_first_offending: the valid event at time 2
is appended before the event at time 0 throws. -/
theorem inject_events_first_offending_witness :
    sim_inject st0 [(0, [⟨0, 0, 2⟩, ⟨0, 0, 0⟩])]
      = inject_result.err ⟨0, 1⟩
          { st0 with pending_events := apply_good g2l0 [(0, ⟨0, 0, 2⟩)] st0.pending_events } :=
  inject_events_first_offending st0 [(0, [⟨0, 0, 2⟩, ⟨0, 0, 0⟩])]
    [(0, ⟨0, 0, 2⟩)] 0 ⟨0, 0, 0⟩ [] rfl (by decide) (by decide)

/-- Counterexample to claim C1 as stated: injecting a time-valid local
event followed by a past-time event throws the domain error, but the
pending buffer of cell 0 now holds the first event, so the buffers are
not left unchanged. -/
theorem inject_events_partial_append_cex :
    sim_inject st0 [(0, [⟨0, 0, 2⟩, ⟨0, 0, 0⟩])]
      = inject_result.err ⟨0, 1⟩ { st0 with pending_events := [[⟨0, 0, 2⟩]] }
      ∧ [[(⟨0, 0, 2⟩ : pse)]] ≠ st0.pending_events := by
  exact ⟨rfl, by decide⟩

/-- Claim C9: the past-time check precedes the locality check. First
half: an injection whose first offending event targets a foreign gid
still throws bad_event_time. Second half: a call of time-valid events
all targeting foreign gids succeeds and leaves every pending buffer
unchanged. -/
theorem inject_time_check_before_locality :
    (∀ (s : sim_state) (events : List (Nat × List pse)) (pre : List (Nat × pse))
        (gid : Nat) (bad : pse) (post : List (Nat × pse)),
      flat_events events = pre ++ (gid, bad) :: post →
      (∀ q ∈ pre, ¬(q.2.time < s.epoch_.t1)) →
      bad.time < s.epoch_.t1 →
      s.gid_to_local gid = none →
      sim_inject s events
        = inject_result.err ⟨bad.time, s.epoch_.t1⟩
            { s with pending_events := apply_good s.gid_to_local pre s.pending_events })
    ∧ (∀ (s : sim_state) (events : List (Nat × List pse)),
      (∀ q ∈ flat_events events, ¬(q.2.time < s.epoch_.t1)) →
      (∀ q ∈ flat_events events, s.gid_to_local q.1 = none) →
      sim_inject s events = inject_result.ok s) := by
  constructor
  · intro s events pre gid bad post hflat hpre hbad hforeign
    unfold sim_inject
    rw [inject_loop_eq_flat, hflat,
      inject_flat_first_bad s.epoch_.t1 s.gid_to_local pre gid bad post
        s.pending_events hpre hbad]
  · intro s events hgood hforeign
    unfold sim_inject
    rw [inject_loop_eq_flat,
      inject_flat_all_good s.epoch_.t1 s.gid_to_local _ s.pending_events hgood,
      apply_good_foreign s.gid_to_local _ s.pending_events hforeign]

/-- Witness for inject_time_check_before_locality: a past-time event on
the foreign gid 7 throws with the buffers untouched, while a time-valid
event on gid 7 is silently dropped. -/
theorem inject_time_check_before_locality_witness :
    sim_inject st0 [(7, [⟨0, 0, 0⟩])] = inject_result.err ⟨0, 1⟩ st0
      ∧ sim_inject st0 [(7, [⟨0, 0, 5⟩])] = inject_result.ok st0 :=
  ⟨inject_time_check_before_locality.1 st0 [(7, [⟨0, 0, 0⟩])] [] 7 ⟨0, 0, 0⟩ []
      rfl (by decide) (by decide) rfl,
   inject_time_check_before_locality.2 st0 [(7, [⟨0, 0, 5⟩])]
      (by decide) (by decide)⟩

/-- Concrete collaborator model with silent cell groups, an identity
exchange and no generator events, used by the concrete witnesses. -/
def m0 : SimModel :=
  { advance := fun _ g _ _ _ => (g, []),
    comm_exchange := fun c l => (c, l),
    make_event_queues := fun _ p => p,
    gen_events := fun _ _ _ => [],
    gen_reset := fun g => g,
    group_reset := fun g => g,
    comm_reset := fun c => c }

/-- Claim C4: a run call with tfinal at most the recorded epoch end and
a positive dt returns the recorded epoch end and leaves the whole state
(epoch, lanes, pending buffers, spike stores, cell groups, everything)
unchanged. -/
theorem run_noop (m : SimModel) (s : sim_state) (tfinal dt : Int)
    (h1 : tfinal ≤ s.epoch_.t1) (h2 : 0 < dt) :
    sim_run m s tfinal dt = (s, s.epoch_.t1) := by
  unfold sim_run
  rw [if_pos h1]

/-- Witness for run_noop at a concrete state with recorded epoch end 1. -/
theorem run_noop_witness : sim_run m0 st0 1 1 = (st0, 1) :=
  run_noop m0 st0 1 1 (by decide) (by decide)

/-- Claim C7: simulation::run throws the domain error exactly when
dt ≤ 0; for positive dt it forwards to the state run without any other
error at this layer. -/
theorem run_dt_domain_error (m : SimModel) (s : sim_state) (tfinal dt : Int) :
    (dt ≤ 0 →
      simulation_run m s tfinal dt
        = Except.error "Finite time-step must be supplied.")
    ∧ (0 < dt →
      simulation_run m s tfinal dt = Except.ok (sim_run m s tfinal dt)) := by
  constructor
  · intro h
    unfold simulation_run
    rw [if_pos h]
  · intro h
    unfold simulation_run
    rw [if_neg (by omega)]

/-- Witness for run_dt_domain_error: dt = -1 throws, dt = 1 succeeds. -/
theorem run_dt_domain_error_witness :
    simulation_run m0 st0 5 (-1) = Except.error "Finite time-step must be supplied."
      ∧ simulation_run m0 st0 5 1 = Except.ok (sim_run m0 st0 5 1) :=
  ⟨(run_dt_domain_error m0 st0 5 (-1)).1 (by decide),
   (run_dt_domain_error m0 st0 5 1).2 (by decide)⟩

/-- Claim C8: after reset the epoch clock is zero (id, t0, t1), every
cell group has been reset, both lane buffers hold only empty lanes,
every event generator has been reset, every pending buffer is empty, the
communicator has been reset, and both local spike stores are empty. -/
theorem reset_spec (m : SimModel) (s : sim_state) :
    (sim_reset m s).epoch_ = ⟨0, 0, 0⟩
      ∧ (sim_reset m s).cell_groups = s.cell_groups.map m.group_reset
      ∧ (∀ l ∈ (sim_reset m s).event_lanes0, l = [])
      ∧ (∀ l ∈ (sim_reset m s).event_lanes1, l = [])
      ∧ (sim_reset m s).event_generators
          = s.event_generators.map (List.map m.gen_reset)
      ∧ (∀ p ∈ (sim_reset m s).pending_events, p = [])
      ∧ (sim_reset m s).comm = m.comm_reset s.comm
      ∧ (sim_reset m s).local_spikes0 = []
      ∧ (sim_reset m s).local_spikes1 = [] := by
  refine ⟨rfl, rfl, ?_, ?_, rfl, ?_, rfl, rfl, rfl⟩ <;>
    · intro l hl
      rcases List.mem_map.mp hl with ⟨a, -, h⟩
      exact h.symm

/-! Projections of the pipeline phases: none of the three tasks touches
the recorded epoch or the interval, and only enqueue writes lanes. -/

theorem set_local_spikes_epoch_ (s : sim_state) (id : Nat) (v : List spike) :
    (s.set_local_spikes id v).epoch_ = s.epoch_ := by
  unfold sim_state.set_local_spikes
  split <;> rfl

theorem set_local_spikes_t_interval (s : sim_state) (id : Nat) (v : List spike) :
    (s.set_local_spikes id v).t_interval = s.t_interval := by
  unfold sim_state.set_local_spikes
  split <;> rfl

theorem set_local_spikes_event_lanes0 (s : sim_state) (id : Nat) (v : List spike) :
    (s.set_local_spikes id v).event_lanes0 = s.event_lanes0 := by
  unfold sim_state.set_local_spikes
  split <;> rfl

theorem set_local_spikes_event_lanes1 (s : sim_state) (id : Nat) (v : List spike) :
    (s.set_local_spikes id v).event_lanes1 = s.event_lanes1 := by
  unfold sim_state.set_local_spikes
  split <;> rfl

theorem set_event_lanes_epoch_ (s : sim_state) (id : Nat) (v : List (List pse)) :
    (s.set_event_lanes id v).epoch_ = s.epoch_ := by
  unfold sim_state.set_event_lanes
  split <;> rfl

theorem set_event_lanes_t_interval (s : sim_state) (id : Nat) (v : List (List pse)) :
    (s.set_event_lanes id v).t_interval = s.t_interval := by
  unfold sim_state.set_event_lanes
  split <;> rfl

theorem update_epoch_ (m : SimModel) (dt : Int) (cur : epoch) (s : sim_state) :
    (update m dt cur s).epoch_ = s.epoch_ := by
  unfold update
  rw [set_local_spikes_epoch_]

theorem update_t_interval (m : SimModel) (dt : Int) (cur : epoch) (s : sim_state) :
    (update m dt cur s).t_interval = s.t_interval := by
  unfold update
  rw [set_local_spikes_t_interval]

theorem update_event_lanes0 (m : SimModel) (dt : Int) (cur : epoch) (s : sim_state) :
    (update m dt cur s).event_lanes0 = s.event_lanes0 := by
  unfold update
  rw [set_local_spikes_event_lanes0]

theorem update_event_lanes1 (m : SimModel) (dt : Int) (cur : epoch) (s : sim_state) :
    (update m dt cur s).event_lanes1 = s.event_lanes1 := by
  unfold update
  rw [set_local_spikes_event_lanes1]

theorem exchange_epoch_ (m : SimModel) (prv : epoch) (s : sim_state) :
    (exchange m prv s).epoch_ = s.epoch_ := rfl

theorem exchange_t_interval (m : SimModel) (prv : epoch) (s : sim_state) :
    (exchange m prv s).t_interval = s.t_interval := rfl

theorem exchange_event_lanes0 (m : SimModel) (prv : epoch) (s : sim_state) :
    (exchange m prv s).event_lanes0 = s.event_lanes0 := rfl

theorem exchange_event_lanes1 (m : SimModel) (prv : epoch) (s : sim_state) :
    (exchange m prv s).event_lanes1 = s.event_lanes1 := rfl

theorem enqueue_epoch_ (m : SimModel) (nxt : epoch) (s : sim_state) :
    (enqueue m nxt s).epoch_ = s.epoch_ := by
  unfold enqueue
  rw [set_event_lanes_epoch_]

theorem enqueue_t_interval (m : SimModel) (nxt : epoch) (s : sim_state) :
    (enqueue m nxt s).t_interval = s.t_interval := by
  unfold enqueue
  rw [set_event_lanes_t_interval]

/-! Bounds on the value returned by the pipelined loop and by run. -/

theorem run_loop_bounds (m : SimModel) (dt tfinal interval : Int) :
    ∀ (n : Nat) (current next : epoch) (s : sim_state),
      (tfinal - next.t1).toNat = n →
      0 ≤ interval → next.t1 ≤ tfinal →
      next.t1 ≤ (run_loop m dt tfinal interval current next s).2
        ∧ (run_loop m dt tfinal interval current next s).2 ≤ tfinal
        ∧ (run_loop m dt tfinal interval current next s).1.epoch_.t1
            = (run_loop m dt tfinal interval current next s).2
        ∧ (run_loop m dt tfinal interval current next s).1.t_interval
            = s.t_interval := by
  intro n
  induction n using Nat.strong_induction_on with
  | _ n ih =>
    intro current next s hn hiv hub
    rw [run_loop]
    set nxt := next_epoch tfinal next interval with hnxt
    have ht1 : nxt.t1 = min (next.t1 + interval) tfinal := by rw [hnxt]; rfl
    have ht0 : nxt.t0 = next.t1 := by rw [hnxt]; rfl
    by_cases hemp : nxt.empty = true
    · rw [if_pos hemp]
      refine ⟨le_refl _, hub, rfl, ?_⟩
      simp only [exchange_t_interval, update_t_interval]
    · rw [if_neg hemp]
      have hA1 : next.t1 ≤ nxt.t1 := ht1 ▸ le_min (by omega) hub
      have hA2 : nxt.t1 ≤ tfinal := ht1 ▸ min_le_right _ _
      have hB : ¬(nxt.t1 ≤ next.t1) := by
        simpa [epoch.empty, ht0] using hemp
      have hlt : (tfinal - nxt.t1).toNat < n := by omega
      have h := ih _ hlt next nxt
        (update m dt next (enqueue m nxt (exchange m current s))) rfl hiv hA2
      refine ⟨le_trans hA1 h.1, h.2.1, h.2.2.1, ?_⟩
      rw [h.2.2.2]
      simp only [update_t_interval, enqueue_t_interval, exchange_t_interval]

theorem sim_run_bounds (m : SimModel) (s : sim_state) (tfinal dt : Int)
    (hiv : 0 ≤ s.t_interval) :
    s.epoch_.t1 ≤ (sim_run m s tfinal dt).2
      ∧ (sim_run m s tfinal dt).2 ≤ max tfinal s.epoch_.t1
      ∧ (sim_run m s tfinal dt).1.epoch_.t1 = (sim_run m s tfinal dt).2
      ∧ (sim_run m s tfinal dt).1.t_interval = s.t_interval := by
  unfold sim_run
  by_cases h1 : tfinal ≤ s.epoch_.t1
  · rw [if_pos h1]
    exact ⟨le_refl _, le_max_right _ _, rfl, rfl⟩
  · rw [if_neg h1]
    have hcur : s.epoch_.t1 ≤ (next_epoch tfinal s.epoch_ s.t_interval).t1
        ∧ (next_epoch tfinal s.epoch_ s.t_interval).t1 ≤ tfinal := by
      simp only [next_epoch, epoch.advance_to]
      omega
    by_cases h2 : (next_epoch tfinal (next_epoch tfinal s.epoch_ s.t_interval)
        s.t_interval).empty = true
    · rw [if_pos h2]
      refine ⟨hcur.1, le_trans hcur.2 (le_max_left _ _), rfl, ?_⟩
      simp only [exchange_t_interval, update_t_interval, enqueue_t_interval]
    · rw [if_neg h2]
      have hnext : (next_epoch tfinal s.epoch_ s.t_interval).t1
          ≤ (next_epoch tfinal (next_epoch tfinal s.epoch_ s.t_interval) s.t_interval).t1
          ∧ (next_epoch tfinal (next_epoch tfinal s.epoch_ s.t_interval) s.t_interval).t1
              ≤ tfinal := by
        simp only [next_epoch, epoch.advance_to]
        omega
      have h := run_loop_bounds m dt tfinal s.t_interval _
        (next_epoch tfinal s.epoch_ s.t_interval)
        (next_epoch tfinal (next_epoch tfinal s.epoch_ s.t_interval) s.t_interval)
        (update m dt (next_epoch tfinal s.epoch_ s.t_interval)
          (enqueue m (next_epoch tfinal (next_epoch tfinal s.epoch_ s.t_interval)
            s.t_interval)
            (enqueue m (next_epoch tfinal s.epoch_ s.t_interval) s)))
        rfl hiv hnext.2
      refine ⟨le_trans hcur.1 (le_trans hnext.1 h.1),
        le_trans h.2.1 (le_max_left _ _), h.2.2.1, ?_⟩
      rw [h.2.2.2]
      simp only [update_t_interval, enqueue_t_interval]

/-- Claim C5 (amended): with a non-negative epoch interval, the returned
time is at least the recorded epoch end (so successive returns are
non-decreasing, as the last conjunct states directly), and it is at most
max(tfinal, the recorded epoch end at call entry). It exceeds tfinal
exactly in the no-op case tfinal < recorded end, where the recorded end
is returned. -/
theorem run_return_bounds (m : SimModel) (s : sim_state) (tfinal dt : Int)
    (hiv : 0 ≤ s.t_interval) :
    s.epoch_.t1 ≤ (sim_run m s tfinal dt).2
      ∧ (sim_run m s tfinal dt).2 ≤ max tfinal s.epoch_.t1
      ∧ (sim_run m s tfinal dt).1.epoch_.t1 = (sim_run m s tfinal dt).2
      ∧ ∀ tfinal2 dt2,
          (sim_run m s tfinal dt).2
            ≤ (sim_run m (sim_run m s tfinal dt).1 tfinal2 dt2).2 := by
  have h := sim_run_bounds m s tfinal dt hiv
  refine ⟨h.1, h.2.1, h.2.2.1, fun tfinal2 dt2 => ?_⟩
  have h2 := sim_run_bounds m (sim_run m s tfinal dt).1 tfinal2 dt2
    (by rw [h.2.2.2]; exact hiv)
  calc (sim_run m s tfinal dt).2
      = (sim_run m s tfinal dt).1.epoch_.t1 := h.2.2.1.symm
    _ ≤ _ := h2.1

/-- Witness for run_return_bounds at a concrete state and model. -/
theorem run_return_bounds_witness :
    st0.epoch_.t1 ≤ (sim_run m0 st0 3 1).2
      ∧ (sim_run m0 st0 3 1).2 ≤ max 3 st0.epoch_.t1
      ∧ (sim_run m0 st0 3 1).1.epoch_.t1 = (sim_run m0 st0 3 1).2
      ∧ ∀ tfinal2 dt2,
          (sim_run m0 st0 3 1).2
            ≤ (sim_run m0 (sim_run m0 st0 3 1).1 tfinal2 dt2).2 :=
  run_return_bounds m0 st0 3 1 (by decide)

/-- Fresh concrete state with a large interval, so a run completes in a
single epoch pair. -/
def stc : sim_state :=
  { st0 with epoch_ := ⟨0, 0, 0⟩, t_interval := 20 }

/-- Counterexample to claim C5 as stated: running to 10 and then running
to 5 returns 10 on the second call, which exceeds that call's tfinal
argument (the no-op branch returns the recorded epoch end). -/
theorem run_return_exceeds_tfinal_cex :
    (sim_run m0 stc 10 1).2 = 10
      ∧ (sim_run m0 (sim_run m0 stc 10 1).1 5 1).2 = 10
      ∧ ¬((sim_run m0 (sim_run m0 stc 10 1).1 5 1).2 ≤ 5) := by
  refine ⟨by decide, by decide, by decide⟩

/-! Sortedness of the event lanes across the public operations. -/

/-- Both lane buffers hold only time-sorted lanes. -/
def LanesSorted (s : sim_state) : Prop :=
  (∀ l ∈ s.event_lanes0, TimeSorted l) ∧ (∀ l ∈ s.event_lanes1, TimeSorted l)

instance (s : sim_state) : Decidable (LanesSorted s) := by
  unfold LanesSorted
  infer_instance

/-- The generator contract (spec section 3): events(t_from, t_to) yields
an already-time-sorted sequence inside the window. -/
def GenContract (m : SimModel) : Prop :=
  ∀ st a b, TimeSorted (m.gen_events st a b)
    ∧ ∀ e ∈ m.gen_events st a b, a ≤ e.time ∧ e.time < b

theorem timeSorted_getD {L : List (List pse)} (h : ∀ l ∈ L, TimeSorted l) (i : Nat) :
    TimeSorted (L.getD i []) := by
  rcases Nat.lt_or_ge i L.length with hi | hi
  · rw [List.getD_eq_getElem L [] hi]
    exact h _ (List.getElem_mem hi)
  · rw [List.getD_eq_default L [] hi]
    simp [TimeSorted]

theorem event_lanes_sorted {s : sim_state} (h : LanesSorted s) (id : Nat) :
    ∀ l ∈ s.event_lanes id, TimeSorted l := by
  unfold sim_state.event_lanes
  split
  · exact h.1
  · exact h.2

theorem set_event_lanes_lanes0 (s : sim_state) (id : Nat) (v : List (List pse)) :
    (s.set_event_lanes id v).event_lanes0
      = if id % 2 = 0 then v else s.event_lanes0 := by
  unfold sim_state.set_event_lanes
  split <;> rename_i h <;> simp [h]

theorem set_event_lanes_lanes1 (s : sim_state) (id : Nat) (v : List (List pse)) :
    (s.set_event_lanes id v).event_lanes1
      = if id % 2 = 0 then s.event_lanes1 else v := by
  unfold sim_state.set_event_lanes
  split <;> rename_i h <;> simp [h]

theorem timeSorted_lane_merge {m : SimModel} (nxt : epoch) (s : sim_state)
    (hgc : GenContract m) (h : LanesSorted s) :
    ∀ l ∈ lane_merge m nxt s, TimeSorted l := by
  intro l hl
  rcases List.mem_map.mp hl with ⟨i, -, rfl⟩
  apply timeSorted_merge_cell_events
  · exact timeSorted_getD (event_lanes_sorted h _) i
  · exact timeSorted_sortPse _
  · intro g hg
    rcases List.mem_map.mp hg with ⟨st, -, rfl⟩
    exact (hgc st nxt.t0 nxt.t1).1
  · intro g hg
    rcases List.mem_map.mp hg with ⟨st, -, rfl⟩
    exact (hgc st nxt.t0 nxt.t1).2

theorem lanesSorted_enqueue {m : SimModel} (nxt : epoch) {s : sim_state}
    (hgc : GenContract m) (h : LanesSorted s) :
    LanesSorted (enqueue m nxt s) := by
  have hnews := timeSorted_lane_merge nxt s hgc h
  unfold LanesSorted enqueue
  rw [set_event_lanes_lanes0, set_event_lanes_lanes1]
  by_cases hp : nxt.id % 2 = 0
  · rw [if_pos hp, if_pos hp]
    exact ⟨hnews, h.2⟩
  · rw [if_neg hp, if_neg hp]
    exact ⟨h.1, hnews⟩

theorem lanesSorted_update {m : SimModel} (dt : Int) (cur : epoch) {s : sim_state}
    (h : LanesSorted s) : LanesSorted (update m dt cur s) := by
  unfold LanesSorted
  rw [update_event_lanes0, update_event_lanes1]
  exact h

theorem lanesSorted_exchange {m : SimModel} (prv : epoch) {s : sim_state}
    (h : LanesSorted s) : LanesSorted (exchange m prv s) := h

theorem run_loop_lanes {m : SimModel} (dt tfinal interval : Int)
    (hgc : GenContract m) :
    ∀ (n : Nat) (current next : epoch) (s : sim_state),
      (tfinal - next.t1).toNat = n → LanesSorted s →
      LanesSorted (run_loop m dt tfinal interval current next s).1 := by
  intro n
  induction n using Nat.strong_induction_on with
  | _ n ih =>
    intro current next s hn h
    rw [run_loop]
    set nxt := next_epoch tfinal next interval with hnxt
    have ht1 : nxt.t1 = min (next.t1 + interval) tfinal := by rw [hnxt]; rfl
    have ht0 : nxt.t0 = next.t1 := by rw [hnxt]; rfl
    by_cases hemp : nxt.empty = true
    · rw [if_pos hemp]
      have h3 : LanesSorted (exchange m next (update m dt next
          (exchange m current s))) :=
        lanesSorted_exchange next (lanesSorted_update dt next
          (lanesSorted_exchange current h))
      exact h3
    · rw [if_neg hemp]
      have hB : ¬(nxt.t1 ≤ next.t1) := by
        simpa [epoch.empty, ht0] using hemp
      have hub : nxt.t1 ≤ tfinal := ht1 ▸ min_le_right _ _
      have hlt : (tfinal - nxt.t1).toNat < n := by omega
      exact ih _ hlt next nxt _ rfl
        (lanesSorted_update dt next (lanesSorted_enqueue nxt hgc
          (lanesSorted_exchange current h)))

theorem sim_run_lanes {m : SimModel} {s : sim_state} (tfinal dt : Int)
    (hgc : GenContract m) (h : LanesSorted s) :
    LanesSorted (sim_run m s tfinal dt).1 := by
  unfold sim_run
  by_cases h1 : tfinal ≤ s.epoch_.t1
  · rw [if_pos h1]
    exact h
  · rw [if_neg h1]
    by_cases h2 : (next_epoch tfinal (next_epoch tfinal s.epoch_ s.t_interval)
        s.t_interval).empty = true
    · rw [if_pos h2]
      have h3 : LanesSorted (exchange m (next_epoch tfinal s.epoch_ s.t_interval)
          (update m dt (next_epoch tfinal s.epoch_ s.t_interval)
            (enqueue m (next_epoch tfinal s.epoch_ s.t_interval) s))) :=
        lanesSorted_exchange _ (lanesSorted_update dt _
          (lanesSorted_enqueue _ hgc h))
      exact h3
    · rw [if_neg h2]
      exact run_loop_lanes dt tfinal s.t_interval hgc _ _ _ _ rfl
        (lanesSorted_update dt _ (lanesSorted_enqueue _ hgc
          (lanesSorted_enqueue _ hgc h)))

/-- Claim C6 (amended): every event lane is stored in non-decreasing
time order at every error-free return of reset, inject_events and run
(given generator spans respecting the generator contract); the pending
buffers are empty (hence sorted) after reset, but inject_events and the
exchange phase of run append to pending buffers without sorting, so
pending buffers are not in general time-sorted - they are sorted by the
enqueue phase before being merged. -/
theorem lanes_time_sorted (m : SimModel) (hgc : GenContract m) :
    (∀ s : sim_state, LanesSorted (sim_reset m s)
        ∧ ∀ p ∈ (sim_reset m s).pending_events, TimeSorted p)
      ∧ (∀ (s : sim_state) (events : List (Nat × List pse)) (s' : sim_state),
          sim_inject s events = inject_result.ok s' → LanesSorted s → LanesSorted s')
      ∧ (∀ (s : sim_state) (tfinal dt : Int),
          LanesSorted s → LanesSorted (sim_run m s tfinal dt).1) := by
  refine ⟨fun s => ⟨⟨?_, ?_⟩, ?_⟩, fun s events s' hok h => ?_, fun s tfinal dt h => ?_⟩
  · intro l hl
    rcases List.mem_map.mp hl with ⟨a, -, hh⟩
    rw [← hh]
    simp [TimeSorted]
  · intro l hl
    rcases List.mem_map.mp hl with ⟨a, -, hh⟩
    rw [← hh]
    simp [TimeSorted]
  · intro p hp
    rcases List.mem_map.mp hp with ⟨a, -, hh⟩
    rw [← hh]
    simp [TimeSorted]
  · unfold sim_inject at hok
    revert hok
    cases hres : inject_loop s.epoch_.t1 s.gid_to_local events s.pending_events with
    | ok p =>
      intro hok
      cases hok
      exact h
    | error r =>
      intro hok
      cases hok
  · exact sim_run_lanes tfinal dt hgc h

/-- Witness for lanes_time_sorted: the concrete model satisfies the
generator contract, and the lanes of the concrete state stay sorted
through reset and run. -/
theorem lanes_time_sorted_witness :
    LanesSorted (sim_reset m0 st0) ∧ LanesSorted (sim_run m0 st0 3 1).1 := by
  have hgc : GenContract m0 := by
    intro st a b
    exact ⟨by simp [m0, TimeSorted], by simp [m0]⟩
  exact ⟨(lanes_time_sorted m0 hgc).1 st0 |>.1,
    (lanes_time_sorted m0 hgc).2.2 st0 3 1 (by decide)⟩

/-- Counterexample to claim C6 as stated: injecting two time-valid
events in decreasing time order returns without error and leaves the
pending buffer of cell 0 out of time order. -/
theorem pending_unsorted_after_inject_cex :
    sim_inject st0 [(0, [⟨0, 0, 5⟩, ⟨0, 0, 3⟩])]
        = inject_result.ok { st0 with pending_events := [[⟨0, 0, 5⟩, ⟨0, 0, 3⟩]] }
      ∧ ¬ TimeSorted [(⟨0, 0, 5⟩ : pse), ⟨0, 0, 3⟩] := by
  exact ⟨rfl, by decide⟩

end ArborSim
